import Mathlib

/-!
Verification development for the UDP game-server sample: a shallow embedding
of the message codec (src/message.rs), the server dispatch logic
(src/server.rs) and the world-bounds clamp (src/lib.rs), together with
theorems settling the specification claims.

Modelling conventions:
* Rust `f32` values are modelled by `F32`: NaN, the two infinities, and
  finite values idealised as exact rationals (f32 arithmetic rounding is
  idealised as exact; the operations modelled here — multiply by 255,
  divide by 255, round, casts, clamp — follow Rust semantics on these
  idealised values, including NaN propagation and saturating casts).
* Rust `String`/`&str` values are modelled as `List Char`; byte-based
  slicing (`&s[a..b]`) is modelled with UTF-8 byte offsets via
  `Char.utf8Size`, and a slice at a non-character-boundary offset — which
  panics in Rust — is modelled by the `panic` outcome of `PRes`.
* `u64`/`i32`/`u8` are `Nat`/`Int` with explicit range handling where the
  source wraps or saturates.
-/

namespace GameServer

/-- Model of a Rust `f32` value: NaN, infinities, or an exact finite value. -/
inductive F32 where
  | nan : F32
  | inf : F32
  | ninf : F32
  | fin : ℚ → F32
deriving DecidableEq, Repr

/-- Truncation toward zero of a rational, the semantics of Rust float-to-int casts. -/
def truncQ (q : ℚ) : ℤ :=
  if 0 ≤ q then ⌊q⌋ else ⌈q⌉

/-- Rust f32::round: round half away from zero. -/
def roundQ (q : ℚ) : ℤ :=
  if 0 ≤ q then ⌊q + 1/2⌋ else ⌈q - 1/2⌉

/-- Rust `as i32` on an f32: NaN to 0, saturating truncation otherwise. -/
def asI32 : F32 → ℤ
  | .nan => 0
  | .inf => 2 ^ 31 - 1
  | .ninf => -(2 ^ 31)
  | .fin q => max (-(2 ^ 31)) (min (2 ^ 31 - 1) (truncQ q))

/-- Rust `as u8` on an f32: NaN to 0, saturating truncation otherwise. -/
def asU8 : F32 → ℕ
  | .nan => 0
  | .inf => 255
  | .ninf => 0
  | .fin q => (max 0 (min 255 (truncQ q))).toNat

/-- Rust f32::round lifted to `F32`. -/
def roundF : F32 → F32
  | .nan => .nan
  | .inf => .inf
  | .ninf => .ninf
  | .fin q => .fin (roundQ q)

/-- Multiplication of an `F32` by a positive rational constant. -/
def mulPosF (v : F32) (c : ℚ) : F32 :=
  match v with
  | .nan => .nan
  | .inf => .inf
  | .ninf => .ninf
  | .fin q => .fin (q * c)

/-- Rust f32::clamp with finite rational bounds: returns the min/max bound when
the value compares below/above it, and the value itself otherwise; NaN
propagates because both comparisons are false on NaN. -/
def clampF (v : F32) (lo hi : ℚ) : F32 :=
  match v with
  | .nan => .nan
  | .inf => .fin hi
  | .ninf => .fin lo
  | .fin q => .fin (if q < lo then lo else if hi < q then hi else q)

/-- Two-component f32 vector (cgmath Vector2<f32>). -/
structure Vec2 where
  x : F32
  y : F32
deriving DecidableEq, Repr

/-- Three-component f32 vector (cgmath Vector3<f32>). -/
structure Vec3 where
  x : F32
  y : F32
  z : F32
deriving DecidableEq, Repr

/-- Player record from src/lib.rs. -/
structure Player where
  id : ℕ
  pos : Vec2
  velocity : Vec2
  color : Vec3
deriving DecidableEq, Repr

/-- Player::default from src/lib.rs. -/
def Player.default : Player :=
  { id := 0
  , pos := ⟨.fin 0, .fin 0⟩
  , velocity := ⟨.fin 0, .fin 0⟩
  , color := ⟨.fin 0, .fin 0, .fin 0⟩ }

/-- Player::new from src/lib.rs: default with the given id and color. -/
def Player.new (id : ℕ) (color : Vec3) : Player :=
  { Player.default with id := id, color := color }

/-- The six protocol message variants from src/message.rs. -/
inductive Message where
  | Ping : Message
  | Handshake : Message
  | Ack : ℕ → Vec3 → Message
  | Leave : ℕ → Message
  | Replicate : Player → Message
  | Position : ℕ → Vec2 → Message
deriving DecidableEq, Repr

/-- Result of a fallible Rust computation that can also panic. -/
inductive PRes (α : Type) where
  | ok : α → PRes α
  | err : String → PRes α
  | panic : PRes α
deriving DecidableEq, Repr

/-! Decimal and hexadecimal digit characters and their numeric values. -/

/-- Decimal digit character for a value below 10. -/
def digitChar (n : ℕ) : Char := Char.ofNat (48 + n)

/-- Uppercase hexadecimal digit character, as produced by Rust format X. -/
def hexDigitChar (n : ℕ) : Char :=
  if n < 10 then Char.ofNat (48 + n) else Char.ofNat (55 + n)

/-- Numeric value of a decimal digit character, none when not a digit. -/
def digitVal (c : Char) : Option ℕ :=
  if 48 ≤ c.toNat ∧ c.toNat ≤ 57 then some (c.toNat - 48) else none

/-- Numeric value of a hexadecimal digit character (either case), none otherwise. -/
def hexVal (c : Char) : Option ℕ :=
  if 48 ≤ c.toNat ∧ c.toNat ≤ 57 then some (c.toNat - 48)
  else if 65 ≤ c.toNat ∧ c.toNat ≤ 70 then some (c.toNat - 55)
  else if 97 ≤ c.toNat ∧ c.toNat ≤ 102 then some (c.toNat - 87)
  else none

/-- Decimal digit string of a natural number, most significant digit first
(Rust Display for unsigned integers). -/
def natToChars (n : ℕ) : List Char :=
  if n < 10 then [digitChar n]
  else natToChars (n / 10) ++ [digitChar (n % 10)]
decreasing_by
  exact Nat.div_lt_self (by omega) (by omega)

/-- Rust Display for i32: optional minus sign then decimal digits. -/
def i32ToChars (z : ℤ) : List Char :=
  if z < 0 then '-' :: natToChars z.natAbs else natToChars z.natAbs

/-- Two-digit uppercase hex of a byte, the Rust format 02X on a u8. -/
def hex2 (n : ℕ) : List Char := [hexDigitChar (n / 16), hexDigitChar (n % 16)]

/-- Fold a digit list into a number given a per-character digit reader;
none as soon as one character is not a digit. -/
def digitsVal (reader : Char → Option ℕ) (base : ℕ) (s : List Char) : Option ℕ :=
  s.foldl (fun acc c => acc.bind fun a => (reader c).map fun d => base * a + d) (some 0)

/-- Strip one leading plus sign (accepted by Rust integer from_str). -/
def stripPlus (s : List Char) : List Char :=
  match s with
  | [] => []
  | c :: t => if c = '+' then t else c :: t

/-- Rust u64::from_str: optional plus sign, nonempty decimal digits, value
below 2^64 (overflow is an error). -/
def parseU64 (s : List Char) : Option ℕ :=
  let t := stripPlus s
  if t = [] then none
  else (digitsVal digitVal 10 t).bind fun n => if n < 2 ^ 64 then some n else none

/-- Rust u8::from_str_radix with radix 16: optional plus sign, nonempty hex
digits of either case, value at most 255 (overflow is an error). -/
def parseHexU8 (s : List Char) : Option ℕ :=
  let t := stripPlus s
  if t = [] then none
  else (digitsVal hexVal 16 t).bind fun n => if n ≤ 255 then some n else none

/-- Split a character list on a separator, Rust str::split semantics: the
empty string yields one empty segment, and a trailing separator yields a
trailing empty segment. -/
def splitSep (sep : Char) : List Char → List (List Char)
  | [] => [[]]
  | c :: rest =>
    if c = sep then [] :: splitSep sep rest
    else
      match splitSep sep rest with
      | [] => [[c]]
      | h :: t => (c :: h) :: t

/-- Rust f32::from_str restricted to the plain decimal grammar this protocol
emits: optional sign, then digits with an optional fractional part (at least
one digit overall). Special names and exponents are not modelled. -/
def parseF32 (s : List Char) : Option F32 :=
  let sgn : Bool × List Char :=
    match s with
    | [] => (false, [])
    | c :: t => if c = '-' then (true, t) else if c = '+' then (false, t) else (false, c :: t)
  let fromParts (ip fp : List Char) : Option F32 :=
    if ip ++ fp = [] then none
    else
      (digitsVal digitVal 10 ip).bind fun i =>
        (digitsVal digitVal 10 fp).map fun f =>
          let v : ℚ := (i : ℚ) + (f : ℚ) / (10 : ℚ) ^ fp.length
          .fin (if sgn.1 then -v else v)
  match splitSep '.' sgn.2 with
  | [d] => fromParts d []
  | [d, f] => fromParts d f
  | _ => none

/-! UTF-8 byte-offset slicing of strings, as Rust byte-indexed str slices. -/

/-- UTF-8 byte length of a character list (Rust str::len). -/
def utf8Len (s : List Char) : ℕ := (s.map Char.utf8Size).sum

/-- Drop the first n BYTES of a string; none when n does not fall on a
character boundary (Rust would panic) or past the end. -/
def dropBytes (s : List Char) (n : ℕ) : Option (List Char) :=
  if n = 0 then some s
  else
    match s with
    | [] => none
    | c :: t => if c.utf8Size ≤ n then dropBytes t (n - c.utf8Size) else none

/-- Take the first n BYTES of a string; none when n does not fall on a
character boundary (Rust would panic) or past the end. -/
def takeBytes (s : List Char) (n : ℕ) : Option (List Char) :=
  if n = 0 then some []
  else
    match s with
    | [] => none
    | c :: t => if c.utf8Size ≤ n then (takeBytes t (n - c.utf8Size)).map (c :: ·) else none

/-- Rust byte slice s[a..b] (with a ≤ b): none models the boundary panic. -/
def byteSlice (s : List Char) (a b : ℕ) : Option (List Char) :=
  (dropBytes s a).bind fun t => takeBytes t (b - a)

/-! The codec from src/message.rs. -/

/-- Leading token of the Ping variant. -/
def PINGC : List Char := ['P', 'I', 'N', 'G']

/-- Leading token of the Handshake variant. -/
def HANDSHAKEC : List Char := ['H', 'A', 'N', 'D', 'S', 'H', 'A', 'K', 'E']

/-- Leading token of the Ack variant. -/
def ACKC : List Char := ['A', 'C', 'K']

/-- Leading token of the Leave variant. -/
def LEAVEC : List Char := ['L', 'E', 'A', 'V', 'E']

/-- Leading token of the Replicate variant. -/
def REPLC : List Char := ['R', 'E', 'P', 'L']

/-- Leading token of the Position variant. -/
def POSC : List Char := ['P', 'O', 'S']

/-- serialize_color from src/message.rs: each channel scaled by 255, rounded,
cast to u8, rendered as two uppercase hex digits behind a hash sign. -/
def serializeColor (c : Vec3) : List Char :=
  '#' :: hex2 (asU8 (roundF (mulPosF c.x 255)))
    ++ hex2 (asU8 (roundF (mulPosF c.y 255)))
    ++ hex2 (asU8 (roundF (mulPosF c.z 255)))

/-- deserialize_color from src/message.rs: strips leading hash signs, checks
the BYTE length is 6, then byte-slices [0..2], [2..4], [4..6] (a slice not on
a character boundary panics in Rust, modelled by the panic outcome), parses
each slice as hex and divides by 255. -/
def deserializeColor (s : List Char) : PRes Vec3 :=
  let t := s.dropWhile (· = '#')
  if utf8Len t ≠ 6 then .err "Invalid hex color format"
  else
    match byteSlice t 0 2 with
    | none => .panic
    | some rs =>
      match parseHexU8 rs with
      | none => .err "Failed to parse red component"
      | some r =>
        match byteSlice t 2 4 with
        | none => .panic
        | some gs =>
          match parseHexU8 gs with
          | none => .err "Failed to parse green component"
          | some g =>
            match byteSlice t 4 6 with
            | none => .panic
            | some bs =>
              match parseHexU8 bs with
              | none => .err "Failed to parse blue component"
              | some b =>
                .ok ⟨.fin ((r : ℚ) / 255), .fin ((g : ℚ) / 255), .fin ((b : ℚ) / 255)⟩

/-- Message::serialize from src/message.rs. Positions are cast to i32
(truncation toward zero, saturating) before being printed. -/
def Message.serialize : Message → List Char
  | .Ping => PINGC
  | .Handshake => HANDSHAKEC
  | .Ack id color => ACKC ++ ':' :: natToChars id ++ ':' :: serializeColor color
  | .Leave id => LEAVEC ++ ':' :: natToChars id
  | .Replicate p =>
    REPLC ++ ':' :: natToChars p.id ++ ':' :: i32ToChars (asI32 p.pos.x)
      ++ ',' :: i32ToChars (asI32 p.pos.y) ++ ',' :: serializeColor p.color
  | .Position id pos =>
    POSC ++ ':' :: natToChars id ++ ':' :: i32ToChars (asI32 pos.x)
      ++ ',' :: i32ToChars (asI32 pos.y)

/-- Body of the ACK arm of Message::deserialize. -/
def deserAck (p1 p2 : List Char) : PRes Message :=
  match parseU64 p1 with
  | none => .err "Invalid PlayerId"
  | some pid =>
    match deserializeColor p2 with
    | .panic => .panic
    | .err e => .err e
    | .ok c => .ok (.Ack pid c)

/-- Body of the LEAVE arm of Message::deserialize. -/
def deserLeave (p1 : List Char) : PRes Message :=
  match parseU64 p1 with
  | none => .err "Invalid PlayerID"
  | some pid => .ok (.Leave pid)

/-- Body of the REPL arm of Message::deserialize: the data field splits on
commas into exactly x, y and a color; the decoded player gets velocity
(0, 0). -/
def deserRepl (p1 p2 : List Char) : PRes Message :=
  match parseU64 p1 with
  | none => .err "Invalid PlayerID"
  | some pid =>
    match splitSep ',' p2 with
    | [xs, ys, cs] =>
      match parseF32 xs with
      | none => .err "Invalid format x coordinate"
      | some x =>
        match parseF32 ys with
        | none => .err "Invalid format y coordinate"
        | some y =>
          match deserializeColor cs with
          | .panic => .panic
          | .err e => .err e
          | .ok c =>
            .ok (.Replicate { id := pid, pos := ⟨x, y⟩, velocity := ⟨.fin 0, .fin 0⟩, color := c })
    | _ => .err "Invalid format"

/-- Body of the POS arm of Message::deserialize. -/
def deserPos (p1 p2 : List Char) : PRes Message :=
  match parseU64 p1 with
  | none => .err "Invalid PlayerId"
  | some pid =>
    match splitSep ',' p2 with
    | [xs, ys] =>
      match parseF32 xs with
      | none => .err "Invalid x coordinator"
      | some x =>
        match parseF32 ys with
        | none => .err "Invalid y coordinator"
        | some y => .ok (.Position pid ⟨x, y⟩)
    | _ => .err "Invalid position format"

/-- Dispatch of Message::deserialize on the colon-separated parts, in source
arm order. The Ping and Handshake arms carry no field-count guard; the other
four arms require an exact field count and fall through to the generic error
otherwise. -/
def deserializeParts : List (List Char) → PRes Message
  | [] => .err "Unknown or invalid message format"
  | p0 :: rest =>
    if p0 = PINGC then .ok .Ping
    else if p0 = HANDSHAKEC then .ok .Handshake
    else if p0 = ACKC then
      match rest with
      | [p1, p2] => deserAck p1 p2
      | _ => .err "Unknown or invalid message format"
    else if p0 = LEAVEC then
      match rest with
      | [p1] => deserLeave p1
      | _ => .err "Unknown or invalid message format"
    else if p0 = REPLC then
      match rest with
      | [p1, p2] => deserRepl p1 p2
      | _ => .err "Unknown or invalid message format"
    else if p0 = POSC then
      match rest with
      | [p1, p2] => deserPos p1 p2
      | _ => .err "Unknown or invalid message format"
    else .err "Unknown or invalid message format"

/-- Message::deserialize from src/message.rs: split on colons, then dispatch
on the parts. -/
def Message.deserialize (msg : List Char) : PRes Message :=
  deserializeParts (splitSep ':' msg)

/-! Server model from src/server.rs: the player registry is a HashMap from
socket address to Player, modelled as an association list with unique keys
(uniqueness is a HashMap guarantee; theorems that need it take it as a
hypothesis or derive it from reachability). -/

/-- Abstract socket address. -/
abbrev Addr := ℕ

/-- The registry: address to player, one entry per connected client. -/
abbrev Registry := List (Addr × Player)

/-- HashMap::get on the registry model. -/
def lookupReg (reg : Registry) (a : Addr) : Option Player :=
  match reg with
  | [] => none
  | (k, v) :: rest => if k = a then some v else lookupReg rest a

/-- HashMap::insert on the registry model: replace the entry when the key is
present, append otherwise. -/
def insertReg (reg : Registry) (a : Addr) (p : Player) : Registry :=
  match reg with
  | [] => [(a, p)]
  | (k, v) :: rest => if k = a then (k, p) :: rest else (k, v) :: insertReg rest a p

/-- HashMap::remove on the registry model. -/
def removeReg (reg : Registry) (a : Addr) : Registry :=
  match reg with
  | [] => []
  | (k, v) :: rest => if k = a then rest else (k, v) :: removeReg rest a

/-- HashMap::len on the registry model. -/
def sizeReg (reg : Registry) : ℕ := reg.length

/-- Registry keys. -/
def keysReg (reg : Registry) : List Addr := reg.map Prod.fst

/-- ServerContext state relevant to dispatch: the registry and the atomic
player-id counter (a u64, so arithmetic wraps at 2^64). -/
structure ServerState where
  players : Registry
  playerIdCounter : ℕ
deriving DecidableEq, Repr

/-- ServerContext::new seeds the id counter at 1 with an empty registry. -/
def ServerState.init : ServerState := { players := [], playerIdCounter := 1 }

/-- A broadcast envelope placed on the broadcaster channel. -/
structure BroadcastMessage where
  msg : List Char
  excludedClient : Option Addr
deriving DecidableEq, Repr

/-- accept_client from src/server.rs: when the address already has an entry,
re-send an Ack with the existing identity and leave the state untouched;
otherwise allocate a fresh id by fetch_add on the counter (wrapping u64),
insert the new player, and Ack the new identity. The random color is passed
in as an oracle. Returns the new state and the Ack payload (id, color). -/
def acceptClient (st : ServerState) (client : Addr) (freshColor : Vec3) :
    ServerState × (ℕ × Vec3) :=
  match lookupReg st.players client with
  | some existing => (st, (existing.id, existing.color))
  | none =>
    let newId := st.playerIdCounter
    let newPlayer := Player.new newId freshColor
    ({ players := insertReg st.players client newPlayer
     , playerIdCounter := (st.playerIdCounter + 1) % 2 ^ 64 },
     (newId, freshColor))

/-- Overwrite the position of the entry at the given address, leaving id,
velocity and color untouched. -/
def setPosReg (reg : Registry) (a : Addr) (newPos : Vec2) : Registry :=
  reg.map fun e => if e.1 = a then (e.1, { e.2 with pos := newPos }) else e

/-- update_position from src/server.rs: when the address maps to a player
whose id equals the claimed id, overwrite that player's position verbatim;
a mismatched id or an unregistered address returns Ok with no change. Every
path returns Ok. -/
def updatePosition (st : ServerState) (client : Addr) (playerId : ℕ)
    (newPos : Vec2) : Except String ServerState :=
  match lookupReg st.players client with
  | none => .ok st
  | some p =>
    if playerId ≠ p.id then .ok st
    else .ok { st with players := setPosReg st.players client newPos }

/-- drop_player from src/server.rs: remove the address's entry (no check that
the claimed id matches), then enqueue a Leave broadcast with the claimed id,
excluding the sender. -/
def dropPlayer (st : ServerState) (client : Addr) (playerId : ℕ) :
    ServerState × BroadcastMessage :=
  ({ st with players := removeReg st.players client },
   { msg := Message.serialize (.Leave playerId), excludedClient := some client })

/-- broadcast_sender from src/server.rs, one envelope: the addresses actually
sent the payload are the registered addresses other than the excluded one, in
registry order. -/
def broadcastSends (reg : Registry) (b : BroadcastMessage) : List Addr :=
  (keysReg reg).filter fun a => some a ≠ b.excludedClient

/-- clamp_player_to_bounds from src/lib.rs: clamp each coordinate into the
world bounds inset by half the player quad size (1200 - 24/2 = 1188). -/
def clampPlayerToBounds (p : Player) : Player :=
  { p with pos := ⟨clampF p.pos.x (-1188) 1188, clampF p.pos.y (-1188) 1188⟩ }

/-- One simulation tick over the registry (src/server.rs simulation_handler):
clamp every player in place and enqueue one Replicate envelope per player,
excluding that player's own address. -/
def simTick (reg : Registry) : Registry × List BroadcastMessage :=
  (reg.map fun (k, v) => (k, clampPlayerToBounds v),
   reg.map fun (k, v) =>
     { msg := Message.serialize (.Replicate (clampPlayerToBounds v))
     , excludedClient := some k })

/-- listen_handler dispatch decision from src/server.rs: a received payload is
handed to a handler task exactly when its byte length is strictly greater
than 1. -/
def listenDispatch (payloadLen : ℕ) : Bool := 1 < payloadLen

/-- One inbound datagram event as dispatched by process_client_message; the
handshake event carries the color oracle. -/
inductive Op where
  | handshake : Addr → Vec3 → Op
  | position : Addr → ℕ → Vec2 → Op
  | leave : Addr → ℕ → Op

/-- State transition of one dispatched event. -/
def stepOp (st : ServerState) (op : Op) : ServerState :=
  match op with
  | .handshake a c => (acceptClient st a c).1
  | .position a pid pos =>
    match updatePosition st a pid pos with
    | .ok st' => st'
    | .error _ => st
  | .leave a pid => (dropPlayer st a pid).1

/-- Run a sequence of dispatched events. -/
def runOps (st : ServerState) (ops : List Op) : ServerState :=
  ops.foldl stepOp st

/-- Run a sequence of handshakes, collecting the acked (id, color) pairs. -/
def runHandshakes (st : ServerState) (hs : List (Addr × Vec3)) :
    ServerState × List (ℕ × Vec3) :=
  match hs with
  | [] => (st, [])
  | (a, c) :: rest =>
    let r := acceptClient st a c
    let r' := runHandshakes r.1 rest
    (r'.1, r.2 :: r'.2)

/-! Spec-side descriptions of the codec lossiness, written from the claim's
words, to be compared with the code-derived codec. -/

/-- Position lossiness as the spec words it: the coordinate comes back
truncated to its integer part. -/
def specTruncPos (v : F32) : F32 :=
  match v with
  | .fin q => .fin ((truncQ q : ℤ) : ℚ)
  | v => v

/-- Color lossiness as the spec words it: each channel scaled by 255,
rounded, and restored as hex/255. -/
def specQuantChannel (v : F32) : F32 :=
  match v with
  | .fin q => .fin (((roundQ (q * 255) : ℤ) : ℚ) / 255)
  | v => v

/-- Color lossiness applied to all three channels. -/
def specQuantColor (c : Vec3) : Vec3 :=
  ⟨specQuantChannel c.x, specQuantChannel c.y, specQuantChannel c.z⟩

/-- The decode-of-encode transform the code actually realises: identity on
Ping, Handshake and Leave; color quantization on Ack; position truncation on
Position; and on Replicate additionally the velocity is reset to (0, 0)
because the wire format does not carry it. -/
def specLossy : Message → Message
  | .Ping => .Ping
  | .Handshake => .Handshake
  | .Ack id c => .Ack id (specQuantColor c)
  | .Leave id => .Leave id
  | .Replicate p =>
    .Replicate { id := p.id
               , pos := ⟨specTruncPos p.pos.x, specTruncPos p.pos.y⟩
               , velocity := ⟨.fin 0, .fin 0⟩
               , color := specQuantColor p.color }
  | .Position id pos => .Position id ⟨specTruncPos pos.x, specTruncPos pos.y⟩

/-- Finite value lying in a closed rational interval. -/
def inBoundsF (v : F32) (lo hi : ℚ) : Prop :=
  ∃ q : ℚ, v = .fin q ∧ lo ≤ q ∧ q ≤ hi

/-- A color channel as the server produces it: a finite value in [0, 1]. -/
def chanOK (v : F32) : Prop :=
  ∃ q : ℚ, v = .fin q ∧ 0 ≤ q ∧ q ≤ 1

/-- All three channels of a color are in range. -/
def colorOK (c : Vec3) : Prop :=
  chanOK c.x ∧ chanOK c.y ∧ chanOK c.z

/-- A position coordinate that is finite and within the i32 cast range, so
the serializer's saturating cast reduces to plain truncation. -/
def posOK (v : F32) : Prop :=
  ∃ q : ℚ, v = .fin q ∧ -(2 ^ 31 : ℚ) < q ∧ q < 2 ^ 31

/-- Range side conditions under which the round-trip behaviour is stated:
ids fit in u64 (they are u64 in the source), position coordinates are finite
and within i32 range, color channels are finite in [0, 1]. -/
def GoodMsg : Message → Prop
  | .Ping => True
  | .Handshake => True
  | .Ack id c => id < 2 ^ 64 ∧ colorOK c
  | .Leave id => id < 2 ^ 64
  | .Replicate p => p.id < 2 ^ 64 ∧ posOK p.pos.x ∧ posOK p.pos.y ∧ colorOK p.color
  | .Position id pos => id < 2 ^ 64 ∧ posOK pos.x ∧ posOK pos.y

/-- List of player ids stored in the registry, in entry order. -/
def idsOfReg (reg : Registry) : List ℕ := reg.map fun e => e.2.id

/-- Registry well-formedness at a counter bound: unique keys (the HashMap
invariant), pairwise-distinct stored ids, every stored id strictly below the
id counter, and the counter itself at most the given bound (which tracks how
many allocations can have happened, keeping the u64 counter from wrapping). -/
def RegInv (st : ServerState) (n : ℕ) : Prop :=
  (keysReg st.players).Nodup ∧ (idsOfReg st.players).Nodup ∧
    (∀ i ∈ idsOfReg st.players, i < st.playerIdCounter) ∧ st.playerIdCounter ≤ n

/-! Codec lemmas: characters, digit strings, splitting. -/

/-- Reading back a decimal digit character. -/
theorem digitVal_digitChar (d : ℕ) (h : d < 10) : digitVal (digitChar d) = some d := by
  interval_cases d <;> decide

/-- Decimal digit characters are none of the protocol's special characters. -/
theorem digitChar_ne_special (d : ℕ) (h : d < 10) :
    digitChar d ≠ ':' ∧ digitChar d ≠ ',' ∧ digitChar d ≠ '.' ∧
      digitChar d ≠ '-' ∧ digitChar d ≠ '+' ∧ digitChar d ≠ '#' := by
  interval_cases d <;> decide

/-- Reading back an uppercase hex digit character. -/
theorem hexVal_hexDigitChar (d : ℕ) (h : d < 16) : hexVal (hexDigitChar d) = some d := by
  interval_cases d <;> decide

/-- Hex digit characters are one UTF-8 byte and none of the protocol's
special characters. -/
theorem hexDigitChar_facts (d : ℕ) (h : d < 16) :
    (hexDigitChar d).utf8Size = 1 ∧ hexDigitChar d ≠ ':' ∧
      hexDigitChar d ≠ ',' ∧ hexDigitChar d ≠ '#' ∧ hexDigitChar d ≠ '+' := by
  interval_cases d <;> decide

/-- The decimal print of a natural number is a nonempty digit string. -/
theorem natToChars_shape (n : ℕ) :
    natToChars n ≠ [] ∧ ∀ c ∈ natToChars n, ∃ d, d < 10 ∧ c = digitChar d := by
  induction n using Nat.strong_induction_on with
  | _ n ih =>
    rw [natToChars]
    split_ifs with h
    · refine ⟨by simp, ?_⟩
      intro c hc
      simp only [List.mem_singleton] at hc
      exact ⟨n, h, hc⟩
    · have ihd := ih (n / 10) (Nat.div_lt_self (by omega) (by omega))
      refine ⟨by simp, ?_⟩
      intro c hc
      rcases List.mem_append.mp hc with h1 | h1
      · exact ihd.2 c h1
      · simp only [List.mem_singleton] at h1
        exact ⟨n % 10, Nat.mod_lt _ (by omega), h1⟩

/-- Folding the decimal print of a natural number back recovers it. -/
theorem digitsVal_natToChars (n : ℕ) :
    digitsVal digitVal 10 (natToChars n) = some n := by
  induction n using Nat.strong_induction_on with
  | _ n ih =>
    rw [natToChars]
    split_ifs with h
    · simp [digitsVal, digitVal_digitChar n h]
    · have ihd := ih (n / 10) (Nat.div_lt_self (by omega) (by omega))
      simp only [digitsVal] at ihd ⊢
      rw [List.foldl_append, ihd]
      simp [digitVal_digitChar (n % 10) (Nat.mod_lt _ (by omega))]
      omega

/-- Rust u64 parsing undoes the decimal print of any value below 2^64. -/
theorem parseU64_natToChars (n : ℕ) (h : n < 2 ^ 64) :
    parseU64 (natToChars n) = some n := by
  have hsh := natToChars_shape n
  have hne : stripPlus (natToChars n) = natToChars n := by
    cases hcs : natToChars n with
    | nil => rfl
    | cons c t =>
      obtain ⟨d, hd, rfl⟩ := hsh.2 c (by rw [hcs]; simp)
      simp [stripPlus, (digitChar_ne_special d hd).2.2.2.2.1]
  simp only [parseU64, hne]
  rw [if_neg hsh.1, digitsVal_natToChars]
  simp
  omega

/-- Splitting a string free of the separator yields one segment. -/
theorem splitSep_nosep (sep : Char) (s : List Char)
    (h : ∀ c ∈ s, c ≠ sep) : splitSep sep s = [s] := by
  induction s with
  | nil => rfl
  | cons c t ih =>
    have hc : c ≠ sep := h c (by simp)
    have ht := ih fun c' hc' => h c' (by simp [hc'])
    simp [splitSep, hc, ht]

/-- Splitting peels off a separator-free segment before the first separator. -/
theorem splitSep_append (sep : Char) (a b : List Char)
    (h : ∀ c ∈ a, c ≠ sep) :
    splitSep sep (a ++ sep :: b) = a :: splitSep sep b := by
  induction a with
  | nil => simp [splitSep]
  | cons c t ih =>
    have hc : c ≠ sep := h c (by simp)
    have ht := ih fun c' hc' => h c' (by simp [hc'])
    simp [splitSep, hc, ht]

/-- The restricted Rust float parser undoes the decimal print of a natural
number, recovering the exact value. -/
theorem parseF32_natToChars (n : ℕ) :
    parseF32 (natToChars n) = some (.fin (n : ℚ)) := by
  have hsh := natToChars_shape n
  have hnodot : ∀ c ∈ natToChars n, c ≠ '.' := by
    intro c hc
    obtain ⟨d, hd, rfl⟩ := hsh.2 c hc
    exact (digitChar_ne_special d hd).2.2.1
  cases hcs : natToChars n with
  | nil => exact absurd hcs hsh.1
  | cons c t =>
    obtain ⟨d, hd, rfl⟩ := hsh.2 c (by rw [hcs]; simp)
    have hne1 : digitChar d ≠ '-' := (digitChar_ne_special d hd).2.2.2.1
    have hne2 : digitChar d ≠ '+' := (digitChar_ne_special d hd).2.2.2.2.1
    have hsplit : splitSep '.' (digitChar d :: t) = [digitChar d :: t] :=
      splitSep_nosep '.' _ (hcs ▸ hnodot)
    have hdv : digitsVal digitVal 10 (digitChar d :: t) = some n := by
      rw [← hcs]
      exact digitsVal_natToChars n
    simp [parseF32, hne1, hne2, hsplit, hdv]
    norm_num [show digitsVal digitVal 10 [] = some 0 from rfl]

/-- The restricted Rust float parser undoes the signed decimal integer print. -/
theorem parseF32_i32ToChars (z : ℤ) :
    parseF32 (i32ToChars z) = some (.fin (z : ℚ)) := by
  rw [i32ToChars]
  split_ifs with hz
  · have hsh := natToChars_shape z.natAbs
    have hnodot : ∀ c ∈ natToChars z.natAbs, c ≠ '.' := by
      intro c hc
      obtain ⟨d, hd, rfl⟩ := hsh.2 c hc
      exact (digitChar_ne_special d hd).2.2.1
    have hsplit : splitSep '.' (natToChars z.natAbs) = [natToChars z.natAbs] :=
      splitSep_nosep '.' _ hnodot
    have hdv := digitsVal_natToChars z.natAbs
    simp [parseF32, hsplit, hdv, hsh.1]
    norm_num [show digitsVal digitVal 10 [] = some 0 from rfl]
    rw [Int.cast_natAbs, Int.cast_abs, abs_of_neg (show (z:ℚ) < 0 by exact_mod_cast hz)]
    ring
  · rw [parseF32_natToChars]
    congr 2
    rw [Int.cast_natAbs, Int.cast_abs]
    exact abs_of_nonneg (show (0:ℚ) ≤ (z:ℚ) by exact_mod_cast not_lt.mp hz)

/-- Truncation toward zero is the identity on integer values. -/
theorem truncQ_intCast (m : ℤ) : truncQ ((m : ℤ) : ℚ) = m := by
  rw [truncQ]
  split_ifs <;> simp

/-- Hex parsing undoes the two-digit uppercase hex print of a byte. -/
theorem parseHexU8_hex2 (n : ℕ) (h : n < 256) : parseHexU8 (hex2 n) = some n := by
  have h1 : n / 16 < 16 := by omega
  have h2 : n % 16 < 16 := Nat.mod_lt _ (by omega)
  have hp : hexDigitChar (n / 16) ≠ '+' := (hexDigitChar_facts _ h1).2.2.2.2
  simp only [parseHexU8, hex2, stripPlus, if_neg hp]
  simp [digitsVal, hexVal_hexDigitChar _ h1, hexVal_hexDigitChar _ h2]
  omega

/-- Decoding a printed hex color recovers each channel as byte/255. -/
theorem deserializeColor_hex (r g b : ℕ) (hr : r < 256) (hg : g < 256) (hb : b < 256) :
    deserializeColor ('#' :: (hex2 r ++ hex2 g ++ hex2 b)) =
      .ok ⟨.fin ((r : ℚ) / 255), .fin ((g : ℚ) / 255), .fin ((b : ℚ) / 255)⟩ := by
  have hr1 : r / 16 < 16 := by omega
  have hr2 : r % 16 < 16 := Nat.mod_lt _ (by omega)
  have hg1 : g / 16 < 16 := by omega
  have hg2 : g % 16 < 16 := Nat.mod_lt _ (by omega)
  have hb1 : b / 16 < 16 := by omega
  have hb2 : b % 16 < 16 := Nat.mod_lt _ (by omega)
  have sr1 := (hexDigitChar_facts _ hr1).1
  have sr2 := (hexDigitChar_facts _ hr2).1
  have sg1 := (hexDigitChar_facts _ hg1).1
  have sg2 := (hexDigitChar_facts _ hg2).1
  have sb1 := (hexDigitChar_facts _ hb1).1
  have sb2 := (hexDigitChar_facts _ hb2).1
  have hneq : hexDigitChar (r / 16) ≠ '#' := (hexDigitChar_facts _ hr1).2.2.2.1
  have hdrop : List.dropWhile (fun c => c = '#') ('#' :: (hex2 r ++ hex2 g ++ hex2 b))
      = hex2 r ++ hex2 g ++ hex2 b := by
    simp [hex2, List.dropWhile_cons, hneq]
  simp only [deserializeColor, hdrop]
  rw [if_neg (by simp [hex2, utf8Len, sr1, sr2, sg1, sg2, sb1, sb2])]
  have hslice1 : byteSlice (hex2 r ++ hex2 g ++ hex2 b) 0 2 = some (hex2 r) := by
    simp [hex2, byteSlice, dropBytes, takeBytes, sr1, sr2]
  have hslice2 : byteSlice (hex2 r ++ hex2 g ++ hex2 b) 2 4 = some (hex2 g) := by
    simp [hex2, byteSlice, dropBytes, takeBytes, sr1, sr2, sg1, sg2]
  have hslice3 : byteSlice (hex2 r ++ hex2 g ++ hex2 b) 4 6 = some (hex2 b) := by
    simp [hex2, byteSlice, dropBytes, takeBytes, sr1, sr2, sg1, sg2, sb1, sb2]
  simp only [hslice1, parseHexU8_hex2 r hr, hslice2, parseHexU8_hex2 g hg,
    hslice3, parseHexU8_hex2 b hb]

/-- The u8 cast of an integer-valued f32 already in byte range. -/
theorem asU8_int (m : ℤ) (h0 : 0 ≤ m) (h1 : m ≤ 255) :
    asU8 (.fin ((m : ℤ) : ℚ)) = m.toNat := by
  simp only [asU8, truncQ_intCast]
  omega

/-- Scaling a unit-interval channel by 255 and rounding lands in byte range. -/
theorem roundQ_mul_bounds (q : ℚ) (h0 : 0 ≤ q) (h1 : q ≤ 1) :
    0 ≤ roundQ (q * 255) ∧ roundQ (q * 255) ≤ 255 := by
  rw [roundQ, if_pos (mul_nonneg h0 (by norm_num))]
  constructor
  · exact Int.le_floor.mpr (by push_cast; linarith)
  · have hlt : (⌊q * 255 + 1/2⌋ : ℤ) < 256 := Int.floor_lt.mpr (by push_cast; linarith)
    omega

/-- The encoder prints exactly the rounded byte channels, and the spec's
quantization description names exactly those bytes over 255. -/
theorem serializeColor_quant (c : Vec3) (h : colorOK c) :
    ∃ r g b : ℕ, r < 256 ∧ g < 256 ∧ b < 256 ∧
      serializeColor c = '#' :: (hex2 r ++ hex2 g ++ hex2 b) ∧
      specQuantColor c = ⟨.fin ((r : ℚ) / 255), .fin ((g : ℚ) / 255), .fin ((b : ℚ) / 255)⟩ := by
  obtain ⟨⟨qx, hx, hx0, hx1⟩, ⟨qy, hy, hy0, hy1⟩, ⟨qz, hz, hz0, hz1⟩⟩ := h
  obtain ⟨hxl, hxu⟩ := roundQ_mul_bounds qx hx0 hx1
  obtain ⟨hyl, hyu⟩ := roundQ_mul_bounds qy hy0 hy1
  obtain ⟨hzl, hzu⟩ := roundQ_mul_bounds qz hz0 hz1
  refine ⟨(roundQ (qx * 255)).toNat, (roundQ (qy * 255)).toNat,
    (roundQ (qz * 255)).toNat, by omega, by omega, by omega, ?_, ?_⟩
  · simp only [serializeColor, hx, hy, hz, mulPosF, roundF]
    rw [asU8_int _ hxl hxu, asU8_int _ hyl hyu, asU8_int _ hzl hzu]
    simp [List.append_assoc]
  · simp only [specQuantColor, specQuantChannel, hx, hy, hz]
    rw [show (((roundQ (qx * 255)).toNat : ℕ) : ℚ) = ((roundQ (qx * 255) : ℤ) : ℚ) by
          exact_mod_cast congrArg (Int.cast : ℤ → ℚ) (Int.toNat_of_nonneg hxl),
        show (((roundQ (qy * 255)).toNat : ℕ) : ℚ) = ((roundQ (qy * 255) : ℤ) : ℚ) by
          exact_mod_cast congrArg (Int.cast : ℤ → ℚ) (Int.toNat_of_nonneg hyl),
        show (((roundQ (qz * 255)).toNat : ℕ) : ℚ) = ((roundQ (qz * 255) : ℤ) : ℚ) by
          exact_mod_cast congrArg (Int.cast : ℤ → ℚ) (Int.toNat_of_nonneg hzl)]

/-- Color round trip: decode of encode is the spec's quantization. -/
theorem deserializeColor_serializeColor (c : Vec3) (h : colorOK c) :
    deserializeColor (serializeColor c) = .ok (specQuantColor c) := by
  obtain ⟨r, g, b, hr, hg, hb, hser, hspec⟩ := serializeColor_quant c h
  rw [hser, deserializeColor_hex r g b hr hg hb, hspec]

/-- The u8 cast never exceeds 255. -/
theorem asU8_le (v : F32) : asU8 v ≤ 255 := by
  cases v <;> simp [asU8]

/-- Printed colors contain no colon and no comma. -/
theorem serializeColor_chars (c : Vec3) :
    ∀ x ∈ serializeColor c, x ≠ ':' ∧ x ≠ ',' := by
  have b1 := asU8_le (roundF (mulPosF c.x 255))
  have b2 := asU8_le (roundF (mulPosF c.y 255))
  have b3 := asU8_le (roundF (mulPosF c.z 255))
  have hform : serializeColor c =
      ['#', hexDigitChar (asU8 (roundF (mulPosF c.x 255)) / 16),
        hexDigitChar (asU8 (roundF (mulPosF c.x 255)) % 16),
        hexDigitChar (asU8 (roundF (mulPosF c.y 255)) / 16),
        hexDigitChar (asU8 (roundF (mulPosF c.y 255)) % 16),
        hexDigitChar (asU8 (roundF (mulPosF c.z 255)) / 16),
        hexDigitChar (asU8 (roundF (mulPosF c.z 255)) % 16)] := rfl
  intro x hx
  rw [hform] at hx
  simp only [List.mem_cons, List.not_mem_nil, or_false] at hx
  rcases hx with rfl | rfl | rfl | rfl | rfl | rfl | rfl
  · exact ⟨by decide, by decide⟩
  · exact ⟨(hexDigitChar_facts _ (by omega)).2.1, (hexDigitChar_facts _ (by omega)).2.2.1⟩
  · exact ⟨(hexDigitChar_facts _ (by omega)).2.1, (hexDigitChar_facts _ (by omega)).2.2.1⟩
  · exact ⟨(hexDigitChar_facts _ (by omega)).2.1, (hexDigitChar_facts _ (by omega)).2.2.1⟩
  · exact ⟨(hexDigitChar_facts _ (by omega)).2.1, (hexDigitChar_facts _ (by omega)).2.2.1⟩
  · exact ⟨(hexDigitChar_facts _ (by omega)).2.1, (hexDigitChar_facts _ (by omega)).2.2.1⟩
  · exact ⟨(hexDigitChar_facts _ (by omega)).2.1, (hexDigitChar_facts _ (by omega)).2.2.1⟩

/-- Within i32 range the saturating cast is plain truncation toward zero. -/
theorem asI32_of_range (q : ℚ) (h1 : -(2 ^ 31 : ℚ) < q) (h2 : q < 2 ^ 31) :
    asI32 (.fin q) = truncQ q := by
  have hle : truncQ q ≤ 2 ^ 31 - 1 := by
    rw [truncQ]
    split_ifs with h
    · have : ⌊q⌋ < (2 ^ 31 : ℤ) := Int.floor_lt.mpr (by push_cast; linarith)
      omega
    · have : ⌈q⌉ ≤ (0 : ℤ) := Int.ceil_le.mpr (by push_cast; linarith)
      have h31 : (0 : ℤ) ≤ 2 ^ 31 - 1 := by norm_num
      omega
  have hge : -(2 ^ 31) ≤ truncQ q := by
    rw [truncQ]
    split_ifs with h
    · have : (0 : ℤ) ≤ ⌊q⌋ := Int.le_floor.mpr (by push_cast; linarith)
      have h31 : -(2 ^ 31 : ℤ) ≤ 0 := by norm_num
      omega
    · have : (-(2 ^ 31) : ℤ) < ⌈q⌉ := Int.lt_ceil.mpr (by push_cast; linarith)
      omega
  simp only [asI32]
  omega

/-- Looking up the key just inserted finds the inserted player. -/
theorem lookup_insertReg_self (reg : Registry) (a : Addr) (p : Player) :
    lookupReg (insertReg reg a p) a = some p := by
  induction reg with
  | nil => simp [insertReg, lookupReg]
  | cons hd tl ih =>
    obtain ⟨k, v⟩ := hd
    by_cases hk : k = a <;> simp [insertReg, lookupReg, hk, ih]

/-- Inserting one key leaves lookups of other keys unchanged. -/
theorem lookup_insertReg_ne (reg : Registry) (a a' : Addr) (p : Player)
    (h : a' ≠ a) : lookupReg (insertReg reg a p) a' = lookupReg reg a' := by
  induction reg with
  | nil => simp [insertReg, lookupReg, Ne.symm h]
  | cons hd tl ih =>
    obtain ⟨k, v⟩ := hd
    by_cases hk : k = a
    · subst hk
      simp [insertReg, lookupReg, Ne.symm h]
    · simp [insertReg, lookupReg, hk, ih]

/-- The key list of a cons cell. -/
theorem keysReg_cons (k : Addr) (v : Player) (tl : Registry) :
    keysReg ((k, v) :: tl) = k :: keysReg tl := rfl

/-- A failed lookup means the key is absent from the key list. -/
theorem lookupReg_eq_none_iff (reg : Registry) (a : Addr) :
    lookupReg reg a = none ↔ a ∉ keysReg reg := by
  induction reg with
  | nil => simp [lookupReg, keysReg]
  | cons hd tl ih =>
    obtain ⟨k, v⟩ := hd
    by_cases hk : k = a
    · subst hk
      simp [lookupReg, keysReg_cons]
    · have ha : a ≠ k := fun hh => hk hh.symm
      simp [lookupReg, keysReg_cons, hk, ih, ha]

/-- Inserting an absent key appends the new entry. -/
theorem insertReg_of_none (reg : Registry) (a : Addr) (p : Player)
    (h : lookupReg reg a = none) : insertReg reg a p = reg ++ [(a, p)] := by
  induction reg with
  | nil => simp [insertReg]
  | cons hd tl ih =>
    obtain ⟨k, v⟩ := hd
    by_cases hk : k = a
    · simp [lookupReg, hk] at h
    · simp [lookupReg, hk] at h
      simp [insertReg, hk, ih h]

/-- Inserting an absent key grows the registry by exactly one entry. -/
theorem sizeReg_insertReg_of_none (reg : Registry) (a : Addr) (p : Player)
    (h : lookupReg reg a = none) :
    sizeReg (insertReg reg a p) = sizeReg reg + 1 := by
  simp [sizeReg, insertReg_of_none reg a p h]

/-- Unfolding of setPosReg on a cons cell. -/
theorem setPosReg_cons (k : Addr) (v : Player) (tl : Registry) (a : Addr)
    (pos : Vec2) :
    setPosReg ((k, v) :: tl) a pos =
      (if k = a then (k, { v with pos := pos }) else (k, v)) :: setPosReg tl a pos := rfl

/-- Overwriting a position rewrites the looked-up entry's position only. -/
theorem lookup_setPosReg_self (reg : Registry) (a : Addr) (pos : Vec2) :
    lookupReg (setPosReg reg a pos) a =
      (lookupReg reg a).map fun p => { p with pos := pos } := by
  induction reg with
  | nil => simp [setPosReg, lookupReg]
  | cons hd tl ih =>
    obtain ⟨k, v⟩ := hd
    rw [setPosReg_cons]
    by_cases hk : k = a
    · rw [if_pos hk]
      simp [lookupReg, hk, ih]
    · rw [if_neg hk]
      simp [lookupReg, hk, ih]

/-- Overwriting one address's position leaves other lookups unchanged. -/
theorem lookup_setPosReg_ne (reg : Registry) (a a' : Addr) (pos : Vec2)
    (h : a' ≠ a) : lookupReg (setPosReg reg a pos) a' = lookupReg reg a' := by
  induction reg with
  | nil => simp [setPosReg, lookupReg]
  | cons hd tl ih =>
    obtain ⟨k, v⟩ := hd
    rw [setPosReg_cons]
    by_cases hk : k = a
    · subst hk
      rw [if_pos rfl]
      simp [lookupReg, Ne.symm h, ih]
    · rw [if_neg hk]
      simp [lookupReg, ih]

/-- Removal yields a sublist of the registry. -/
theorem removeReg_sublist (reg : Registry) (a : Addr) :
    (removeReg reg a).Sublist reg := by
  induction reg with
  | nil => simp [removeReg]
  | cons hd tl ih =>
    obtain ⟨k, v⟩ := hd
    by_cases hk : k = a
    · simp only [removeReg, if_pos hk]
      exact List.sublist_cons_self _ _
    · simp only [removeReg, if_neg hk]
      exact ih.cons₂ _

/-- Position overwrites do not change the key list. -/
theorem keysReg_setPosReg (reg : Registry) (a : Addr) (pos : Vec2) :
    keysReg (setPosReg reg a pos) = keysReg reg := by
  induction reg with
  | nil => rfl
  | cons hd tl ih =>
    obtain ⟨k, v⟩ := hd
    rw [setPosReg_cons]
    by_cases hk : k = a
    · rw [if_pos hk]
      simp [keysReg_cons, ih]
    · rw [if_neg hk]
      simp [keysReg_cons, ih]

/-- Position overwrites do not change the stored id list. -/
theorem idsOfReg_setPosReg (reg : Registry) (a : Addr) (pos : Vec2) :
    idsOfReg (setPosReg reg a pos) = idsOfReg reg := by
  induction reg with
  | nil => rfl
  | cons hd tl ih =>
    obtain ⟨k, v⟩ := hd
    rw [setPosReg_cons]
    have h' := ih
    simp only [idsOfReg] at h' ⊢
    by_cases hk : k = a
    · rw [if_pos hk]
      simp [h']
    · rw [if_neg hk]
      simp [h']

/-- Removal keeps the key list a sublist. -/
theorem keysReg_removeReg_sublist (reg : Registry) (a : Addr) :
    (keysReg (removeReg reg a)).Sublist (keysReg reg) :=
  (removeReg_sublist reg a).map _

/-- Removal keeps the id list a sublist. -/
theorem idsOfReg_removeReg_sublist (reg : Registry) (a : Addr) :
    (idsOfReg (removeReg reg a)).Sublist (idsOfReg reg) :=
  (removeReg_sublist reg a).map _

/-- The id list of an appended fresh entry. -/
theorem idsOfReg_append (reg : Registry) (a : Addr) (p : Player) :
    idsOfReg (reg ++ [(a, p)]) = idsOfReg reg ++ [p.id] := by
  simp [idsOfReg]

/-- The key list of an appended fresh entry. -/
theorem keysReg_append (reg : Registry) (a : Addr) (p : Player) :
    keysReg (reg ++ [(a, p)]) = keysReg reg ++ [a] := by
  simp [keysReg]

/-- One dispatched event preserves the registry invariant, stepping the
counter bound by one (the bound stays below the u64 wrap point). -/
theorem regInv_step (st : ServerState) (op : Op) (n : ℕ) (hInv : RegInv st n)
    (hn : n + 1 ≤ 2 ^ 64 - 1) : RegInv (stepOp st op) (n + 1) := by
  obtain ⟨hk, hi, hlt, hb⟩ := hInv
  cases op with
  | handshake a c =>
    show RegInv (acceptClient st a c).1 (n + 1)
    cases hl : lookupReg st.players a with
    | some p =>
      simp only [acceptClient, hl]
      exact ⟨hk, hi, hlt, by omega⟩
    | none =>
      have hmod : (st.playerIdCounter + 1) % 2 ^ 64 = st.playerIdCounter + 1 :=
        Nat.mod_eq_of_lt (by omega)
      have hins := insertReg_of_none st.players a (Player.new st.playerIdCounter c) hl
      have hmem : a ∉ keysReg st.players := (lookupReg_eq_none_iff _ _).mp hl
      refine ⟨?_, ?_, ?_, ?_⟩ <;>
        simp only [acceptClient, hl, hins, hmod]
      · rw [keysReg_append]
        exact List.Nodup.append hk (List.nodup_singleton a)
          (by simpa [List.disjoint_singleton] using hmem)
      · rw [idsOfReg_append]
        refine List.Nodup.append hi (List.nodup_singleton _) ?_
        intro i hiMem hiSing
        simp only [Player.new, Player.default, List.mem_singleton] at hiSing
        subst hiSing
        exact absurd (hlt _ hiMem) (lt_irrefl _)
      · intro i hiMem
        rw [idsOfReg_append] at hiMem
        rcases List.mem_append.mp hiMem with h1 | h1
        · exact lt_trans (hlt _ h1) (by omega)
        · simp only [Player.new, Player.default, List.mem_singleton] at h1
          subst h1
          omega
      · omega
  | position a pid pos =>
    show RegInv (match updatePosition st a pid pos with
      | .ok st' => st'
      | .error _ => st) (n + 1)
    cases hl : lookupReg st.players a with
    | none =>
      simp only [updatePosition, hl]
      exact ⟨hk, hi, hlt, by omega⟩
    | some p =>
      by_cases hpid : pid ≠ p.id
      · simp only [updatePosition, hl, if_pos hpid]
        exact ⟨hk, hi, hlt, by omega⟩
      · simp only [updatePosition, hl, if_neg hpid]
        exact ⟨by rw [keysReg_setPosReg]; exact hk,
               by rw [idsOfReg_setPosReg]; exact hi,
               by rw [idsOfReg_setPosReg]; exact hlt,
               by show st.playerIdCounter ≤ n + 1; omega⟩
  | leave a pid =>
    show RegInv (dropPlayer st a pid).1 (n + 1)
    refine ⟨?_, ?_, ?_, by show st.playerIdCounter ≤ n + 1; omega⟩
    · exact hk.sublist (keysReg_removeReg_sublist st.players a)
    · exact hi.sublist (idsOfReg_removeReg_sublist st.players a)
    · intro i hiMem
      exact hlt i ((idsOfReg_removeReg_sublist st.players a).mem hiMem)

/-- Running any event sequence short of the u64 wrap point preserves the
registry invariant. -/
theorem regInv_runOps (ops : List Op) (st : ServerState) (n : ℕ)
    (hInv : RegInv st n) (hlen : n + ops.length ≤ 2 ^ 64 - 1) :
    RegInv (runOps st ops) (n + ops.length) := by
  induction ops generalizing st n with
  | nil => simpa [runOps] using hInv
  | cons op rest ih =>
    have hlen' : n + 1 + rest.length ≤ 2 ^ 64 - 1 := by
      simp only [List.length_cons] at hlen
      omega
    have h1 := regInv_step st op n hInv (by omega)
    have h2 := ih (stepOp st op) (n + 1) h1 hlen'
    have harr : n + (op :: rest).length = n + 1 + rest.length := by
      simp [List.length_cons]
      omega
    rw [harr]
    simpa [runOps] using h2

/-- The freshly started server satisfies the registry invariant at bound 1. -/
theorem regInv_init : RegInv ServerState.init 1 := by
  refine ⟨List.nodup_nil, List.nodup_nil, ?_, le_refl 1⟩
  intro i h
  cases h

/-- Sequential handshakes from pairwise-distinct unregistered addresses are
acked with consecutive ids counting up from the current counter value. -/
theorem runHandshakes_ids (hs : List (Addr × Vec3)) (st : ServerState)
    (habs : ∀ a ∈ hs.map Prod.fst, lookupReg st.players a = none)
    (hnd : (hs.map Prod.fst).Nodup)
    (hcnt : st.playerIdCounter + hs.length < 2 ^ 64) :
    (runHandshakes st hs).2.map Prod.fst
      = List.range' st.playerIdCounter hs.length := by
  induction hs generalizing st with
  | nil => simp [runHandshakes]
  | cons hd rest ih =>
    obtain ⟨a, c⟩ := hd
    have hla : lookupReg st.players a = none := habs a (by simp)
    have hlen : st.playerIdCounter + 1 + rest.length < 2 ^ 64 := by
      simp only [List.length_cons] at hcnt
      omega
    have hmod : (st.playerIdCounter + 1) % 2 ^ 64 = st.playerIdCounter + 1 :=
      Nat.mod_eq_of_lt (by omega)
    have hacc : acceptClient st a c =
        ({ players := insertReg st.players a (Player.new st.playerIdCounter c)
         , playerIdCounter := (st.playerIdCounter + 1) % 2 ^ 64 },
         (st.playerIdCounter, c)) := by
      simp [acceptClient, hla]
    have hnotmem : a ∉ rest.map Prod.fst := by
      simp only [List.map_cons, List.nodup_cons] at hnd
      exact hnd.1
    have hrest : ∀ a' ∈ rest.map Prod.fst,
        lookupReg (insertReg st.players a (Player.new st.playerIdCounter c)) a'
          = none := by
      intro a' ha'
      have hne : a' ≠ a := fun hh => hnotmem (hh ▸ ha')
      rw [lookup_insertReg_ne _ _ _ _ hne]
      exact habs a' (by simp [ha'])
    have hnd' : (rest.map Prod.fst).Nodup := by
      simp only [List.map_cons, List.nodup_cons] at hnd
      exact hnd.2
    have hih := ih { players := insertReg st.players a (Player.new st.playerIdCounter c)
                   , playerIdCounter := st.playerIdCounter + 1 }
      hrest hnd' (by simpa using hlen)
    simp only [runHandshakes, hacc, hmod, List.map_cons, List.length_cons]
    rw [List.range'_succ]
    simp only [List.map] at hih ⊢
    rw [hih]

/-- Decimal prints contain neither colon nor comma. -/
theorem natToChars_not_special (n : ℕ) :
    ∀ c ∈ natToChars n, c ≠ ':' ∧ c ≠ ',' := by
  intro c hc
  obtain ⟨d, hd, rfl⟩ := (natToChars_shape n).2 c hc
  exact ⟨(digitChar_ne_special d hd).1, (digitChar_ne_special d hd).2.1⟩

/-- Signed integer prints contain neither colon nor comma. -/
theorem i32ToChars_not_special (z : ℤ) :
    ∀ c ∈ i32ToChars z, c ≠ ':' ∧ c ≠ ',' := by
  intro c hc
  rw [i32ToChars] at hc
  split_ifs at hc with hz
  · rcases List.mem_cons.mp hc with rfl | hc'
    · exact ⟨by decide, by decide⟩
    · exact natToChars_not_special _ c hc'
  · exact natToChars_not_special _ c hc

/-- Round trip of a Leave message is exact. -/
theorem roundtrip_leave (id : ℕ) (h : id < 2 ^ 64) :
    Message.deserialize (Message.serialize (.Leave id)) = .ok (.Leave id) := by
  have hsplit : splitSep ':' (Message.serialize (.Leave id))
      = [LEAVEC, natToChars id] := by
    show splitSep ':' (LEAVEC ++ ':' :: natToChars id) = [LEAVEC, natToChars id]
    rw [splitSep_append ':' LEAVEC _ (by decide),
        splitSep_nosep ':' _ (fun c hc => (natToChars_not_special id c hc).1)]
  rw [Message.deserialize, hsplit]
  simp only [deserializeParts]
  rw [if_neg (by decide), if_neg (by decide), if_neg (by decide), if_pos trivial]
  simp [deserLeave, parseU64_natToChars id h]

/-- Round trip of an Ack message quantizes the color and keeps the id. -/
theorem roundtrip_ack (id : ℕ) (c : Vec3) (hid : id < 2 ^ 64) (hc : colorOK c) :
    Message.deserialize (Message.serialize (.Ack id c))
      = .ok (.Ack id (specQuantColor c)) := by
  have hsplit : splitSep ':' (Message.serialize (.Ack id c))
      = [ACKC, natToChars id, serializeColor c] := by
    show splitSep ':' (ACKC ++ ':' :: (natToChars id ++ ':' :: serializeColor c))
      = [ACKC, natToChars id, serializeColor c]
    rw [splitSep_append ':' ACKC _ (by decide),
        splitSep_append ':' _ _ (fun x hx => (natToChars_not_special id x hx).1),
        splitSep_nosep ':' _ (fun x hx => (serializeColor_chars c x hx).1)]
  rw [Message.deserialize, hsplit]
  simp only [deserializeParts]
  rw [if_neg (by decide), if_neg (by decide), if_pos trivial]
  simp [deserAck, parseU64_natToChars id hid, deserializeColor_serializeColor c hc]

/-- Round trip of a Position message truncates the coordinates. -/
theorem roundtrip_position (id : ℕ) (pos : Vec2) (hid : id < 2 ^ 64)
    (hx : posOK pos.x) (hy : posOK pos.y) :
    Message.deserialize (Message.serialize (.Position id pos))
      = .ok (.Position id ⟨specTruncPos pos.x, specTruncPos pos.y⟩) := by
  obtain ⟨qx, hqx, hx1, hx2⟩ := hx
  obtain ⟨qy, hqy, hy1, hy2⟩ := hy
  have hdata : ∀ x ∈ i32ToChars (asI32 pos.x) ++ ',' :: i32ToChars (asI32 pos.y),
      x ≠ ':' := by
    intro x hxm
    rcases List.mem_append.mp hxm with h1 | h1
    · exact (i32ToChars_not_special _ x h1).1
    · rcases List.mem_cons.mp h1 with rfl | h2
      · decide
      · exact (i32ToChars_not_special _ x h2).1
  have hser : Message.serialize (.Position id pos)
      = POSC ++ ':' :: (natToChars id ++ ':' ::
          (i32ToChars (asI32 pos.x) ++ ',' :: i32ToChars (asI32 pos.y))) := by
    simp [Message.serialize, List.append_assoc]
  have hsplit : splitSep ':' (Message.serialize (.Position id pos))
      = [POSC, natToChars id,
          i32ToChars (asI32 pos.x) ++ ',' :: i32ToChars (asI32 pos.y)] := by
    rw [hser, splitSep_append ':' POSC _ (by decide),
        splitSep_append ':' _ _ (fun x hxm => (natToChars_not_special id x hxm).1),
        splitSep_nosep ':' _ hdata]
  have hcomma : splitSep ',' (i32ToChars (asI32 pos.x) ++ ',' :: i32ToChars (asI32 pos.y))
      = [i32ToChars (asI32 pos.x), i32ToChars (asI32 pos.y)] := by
    rw [splitSep_append ',' _ _ (fun x hxm => (i32ToChars_not_special _ x hxm).2),
        splitSep_nosep ',' _ (fun x hxm => (i32ToChars_not_special _ x hxm).2)]
  rw [Message.deserialize, hsplit]
  simp only [deserializeParts]
  rw [if_neg (by decide), if_neg (by decide), if_neg (by decide), if_neg (by decide),
      if_neg (by decide), if_pos trivial]
  simp only [deserPos, parseU64_natToChars id hid, hcomma,
    parseF32_i32ToChars]
  rw [hqx, hqy, asI32_of_range qx hx1 hx2, asI32_of_range qy hy1 hy2]
  simp [specTruncPos]

/-- Round trip of a Replicate message truncates the coordinates, quantizes
the color, and resets the velocity to (0, 0) because the wire format does
not carry it. -/
theorem roundtrip_repl (p : Player) (hid : p.id < 2 ^ 64)
    (hx : posOK p.pos.x) (hy : posOK p.pos.y) (hc : colorOK p.color) :
    Message.deserialize (Message.serialize (.Replicate p))
      = .ok (.Replicate { id := p.id
                        , pos := ⟨specTruncPos p.pos.x, specTruncPos p.pos.y⟩
                        , velocity := ⟨.fin 0, .fin 0⟩
                        , color := specQuantColor p.color }) := by
  obtain ⟨qx, hqx, hx1, hx2⟩ := hx
  obtain ⟨qy, hqy, hy1, hy2⟩ := hy
  have hdata : ∀ x ∈ i32ToChars (asI32 p.pos.x) ++ ',' ::
      (i32ToChars (asI32 p.pos.y) ++ ',' :: serializeColor p.color), x ≠ ':' := by
    intro x hxm
    rcases List.mem_append.mp hxm with h1 | h1
    · exact (i32ToChars_not_special _ x h1).1
    · rcases List.mem_cons.mp h1 with rfl | h2
      · decide
      · rcases List.mem_append.mp h2 with h3 | h3
        · exact (i32ToChars_not_special _ x h3).1
        · rcases List.mem_cons.mp h3 with rfl | h4
          · decide
          · exact (serializeColor_chars _ x h4).1
  have hser : Message.serialize (.Replicate p)
      = REPLC ++ ':' :: (natToChars p.id ++ ':' ::
          (i32ToChars (asI32 p.pos.x) ++ ',' ::
            (i32ToChars (asI32 p.pos.y) ++ ',' :: serializeColor p.color))) := by
    simp [Message.serialize, List.append_assoc]
  have hsplit : splitSep ':' (Message.serialize (.Replicate p))
      = [REPLC, natToChars p.id,
          i32ToChars (asI32 p.pos.x) ++ ',' ::
            (i32ToChars (asI32 p.pos.y) ++ ',' :: serializeColor p.color)] := by
    rw [hser, splitSep_append ':' REPLC _ (by decide),
        splitSep_append ':' _ _ (fun x hxm => (natToChars_not_special p.id x hxm).1),
        splitSep_nosep ':' _ hdata]
  have hcomma : splitSep ',' (i32ToChars (asI32 p.pos.x) ++ ',' ::
      (i32ToChars (asI32 p.pos.y) ++ ',' :: serializeColor p.color))
      = [i32ToChars (asI32 p.pos.x), i32ToChars (asI32 p.pos.y),
          serializeColor p.color] := by
    rw [splitSep_append ',' _ _ (fun x hxm => (i32ToChars_not_special _ x hxm).2),
        splitSep_append ',' _ _ (fun x hxm => (i32ToChars_not_special _ x hxm).2),
        splitSep_nosep ',' _ (fun x hxm => (serializeColor_chars _ x hxm).2)]
  rw [Message.deserialize, hsplit]
  simp only [deserializeParts]
  rw [if_neg (by decide), if_neg (by decide), if_neg (by decide), if_neg (by decide),
      if_pos trivial]
  simp only [deserRepl, parseU64_natToChars p.id hid, hcomma, parseF32_i32ToChars,
    deserializeColor_serializeColor p.color hc]
  rw [hqx, hqy, asI32_of_range qx hx1 hx2, asI32_of_range qy hy1 hy2]
  simp [specTruncPos]

/-- C1 (amended): for every message whose ids fit in u64, whose position
coordinates are finite and in i32 range, and whose color channels are finite
in [0, 1], decode of encode succeeds and returns the message transformed
exactly by the spec-described lossiness — positions truncated to their
integer parts, colors quantized to round(c*255)/255 — plus one further loss
the claim omits: Replicate's velocity comes back as (0, 0). -/
theorem roundtrip_lossy (m : Message) (h : GoodMsg m) :
    Message.deserialize (Message.serialize m) = .ok (specLossy m) := by
  cases m with
  | Ping => decide
  | Handshake => decide
  | Leave id => exact roundtrip_leave id h
  | Ack id c => exact roundtrip_ack id c h.1 h.2
  | Replicate p => exact roundtrip_repl p h.1 h.2.1 h.2.2.1 h.2.2.2
  | Position id pos => exact roundtrip_position id pos h.1 h.2.1 h.2.2


/-- C1 counterexample: the claim says decode of encode reproduces the
message exactly up to position truncation and color quantization; at this
Replicate whose position and color are already exact the claim therefore
predicts an exact round trip, but the nonzero velocity is not carried on the
wire and comes back as (0, 0). -/
theorem roundtrip_velocity_counterexample :
    Message.deserialize (Message.serialize (.Replicate
      { id := 1, pos := ⟨.fin 0, .fin 0⟩, velocity := ⟨.fin 1, .fin 0⟩
      , color := ⟨.fin 0, .fin 0, .fin 0⟩ })) ≠
    .ok (.Replicate
      { id := 1, pos := ⟨.fin 0, .fin 0⟩, velocity := ⟨.fin 1, .fin 0⟩
      , color := ⟨.fin 0, .fin 0, .fin 0⟩ }) := by
  have h := roundtrip_repl
    { id := 1, pos := ⟨.fin 0, .fin 0⟩, velocity := ⟨.fin 1, .fin 0⟩
    , color := ⟨.fin 0, .fin 0, .fin 0⟩ }
    (by norm_num) ⟨0, rfl, by norm_num, by norm_num⟩ ⟨0, rfl, by norm_num, by norm_num⟩
    ⟨⟨0, rfl, by norm_num, by norm_num⟩, ⟨0, rfl, by norm_num, by norm_num⟩,
      ⟨0, rfl, by norm_num, by norm_num⟩⟩
  rw [h]
  decide

/-- Witness for the amended C1 at the spec's own example values: position
(1.999, -0.001) comes back as (1, 0) and color (0.501, 0.502, 0.503) as
hex 808080 over 255. -/
theorem roundtrip_lossy_witness :
    GoodMsg (.Replicate
      { id := 1, pos := ⟨.fin (1999/1000), .fin (-1/1000)⟩
      , velocity := ⟨.fin 0, .fin 0⟩
      , color := ⟨.fin (501/1000), .fin (502/1000), .fin (503/1000)⟩ }) ∧
    Message.deserialize (Message.serialize (.Replicate
      { id := 1, pos := ⟨.fin (1999/1000), .fin (-1/1000)⟩
      , velocity := ⟨.fin 0, .fin 0⟩
      , color := ⟨.fin (501/1000), .fin (502/1000), .fin (503/1000)⟩ }))
      = .ok (specLossy (.Replicate
      { id := 1, pos := ⟨.fin (1999/1000), .fin (-1/1000)⟩
      , velocity := ⟨.fin 0, .fin 0⟩
      , color := ⟨.fin (501/1000), .fin (502/1000), .fin (503/1000)⟩ })) := by
  have hg : GoodMsg (.Replicate
      { id := 1, pos := ⟨.fin (1999/1000), .fin (-1/1000)⟩
      , velocity := ⟨.fin 0, .fin 0⟩
      , color := ⟨.fin (501/1000), .fin (502/1000), .fin (503/1000)⟩ }) :=
    ⟨by norm_num, ⟨1999/1000, rfl, by norm_num, by norm_num⟩,
      ⟨-1/1000, rfl, by norm_num, by norm_num⟩,
      ⟨501/1000, rfl, by norm_num, by norm_num⟩,
      ⟨502/1000, rfl, by norm_num, by norm_num⟩,
      ⟨503/1000, rfl, by norm_num, by norm_num⟩⟩
  exact ⟨hg, roundtrip_lossy _ hg⟩

/-- C2: the deserializer is NOT panic-free on arbitrary input: on the exact
input named by the claim, "ACK:1:aaaéa", the color field passes the 6-byte
length check but its byte offset 4 falls inside the two-byte character é, so
the Rust byte slice [2..4] panics; the model returns the panic outcome
instead of a MalformedMessage error. -/
theorem deserialize_panics_on_nonboundary :
    Message.deserialize ['A', 'C', 'K', ':', '1', ':', 'a', 'a', 'a', 'é', 'a'] = .panic := by
  decide

/-- C3 counterexample: an extra-delimited payload with leading token PING
decodes successfully (the PING match arm has no field-count guard), refuting
the claim that "PING:extra" never decodes. -/
theorem ping_extra_fields_decodes :
    Message.deserialize ['P', 'I', 'N', 'G', ':', 'e', 'x', 't', 'r', 'a'] = .ok .Ping ∧
    Message.deserialize ['H', 'A', 'N', 'D', 'S', 'H', 'A', 'K', 'E', ':', 'x'] = .ok .Handshake := by
  decide

/-- C3 (amended): for the four payload-carrying variants (Ack, Leave,
Replicate, Position) a wrong colon-delimited field count is rejected with a
MalformedMessage error, but the Ping and Handshake arms match on the leading
token alone and accept any number of extra fields. -/
theorem field_count_validation (msg : List Char) (p0 : List Char)
    (rest : List (List Char)) (hsplit : splitSep ':' msg = p0 :: rest) :
    ((p0 = ACKC ∧ rest.length ≠ 2) ∨ (p0 = LEAVEC ∧ rest.length ≠ 1) ∨
        (p0 = REPLC ∧ rest.length ≠ 2) ∨ (p0 = POSC ∧ rest.length ≠ 2) →
      ∃ e, Message.deserialize msg = .err e) ∧
    (p0 = PINGC → Message.deserialize msg = .ok .Ping) ∧
    (p0 = HANDSHAKEC → Message.deserialize msg = .ok .Handshake) := by
  have h1 : Message.deserialize msg = deserializeParts (p0 :: rest) := by
    rw [Message.deserialize, hsplit]
  refine ⟨?_, ?_, ?_⟩
  · rintro (⟨hp, hl⟩ | ⟨hp, hl⟩ | ⟨hp, hl⟩ | ⟨hp, hl⟩) <;> subst hp <;> rw [h1] <;>
      simp only [deserializeParts] <;>
      rw [if_neg (by decide), if_neg (by decide)]
    · rw [if_pos trivial]
      rcases rest with _ | ⟨a, _ | ⟨b, _ | ⟨c, t⟩⟩⟩
      · exact ⟨_, rfl⟩
      · exact ⟨_, rfl⟩
      · simp at hl
      · exact ⟨_, rfl⟩
    · rw [if_neg (by decide), if_pos trivial]
      rcases rest with _ | ⟨a, _ | ⟨b, t⟩⟩
      · exact ⟨_, rfl⟩
      · simp at hl
      · exact ⟨_, rfl⟩
    · rw [if_neg (by decide), if_neg (by decide), if_pos trivial]
      rcases rest with _ | ⟨a, _ | ⟨b, _ | ⟨c, t⟩⟩⟩
      · exact ⟨_, rfl⟩
      · exact ⟨_, rfl⟩
      · simp at hl
      · exact ⟨_, rfl⟩
    · rw [if_neg (by decide), if_neg (by decide), if_neg (by decide), if_pos trivial]
      rcases rest with _ | ⟨a, _ | ⟨b, _ | ⟨c, t⟩⟩⟩
      · exact ⟨_, rfl⟩
      · exact ⟨_, rfl⟩
      · simp at hl
      · exact ⟨_, rfl⟩
  · intro hp
    subst hp
    rw [h1]
    simp only [deserializeParts]
    rw [if_pos trivial]
  · intro hp
    subst hp
    rw [h1]
    simp only [deserializeParts]
    rw [if_neg (by decide), if_pos trivial]

/-- Witness for the amended C3 theorem at concrete inputs: "ACK:1" (two
fields instead of three) is rejected, and "PING:x" decodes to Ping. -/
theorem field_count_validation_witness :
    (∃ e, Message.deserialize ['A', 'C', 'K', ':', '1'] = .err e) ∧
    Message.deserialize ['P', 'I', 'N', 'G', ':', 'x'] = .ok .Ping :=
  ⟨(field_count_validation ['A', 'C', 'K', ':', '1'] ACKC [['1']] (by decide)).1
      (Or.inl ⟨rfl, by decide⟩),
   (field_count_validation ['P', 'I', 'N', 'G', ':', 'x'] PINGC [['x']] (by decide)).2.1 rfl⟩

/-- C9 counterexample: a one-byte datagram payload is NOT dispatched — the
listener's guard is len strictly greater than 1, so the length-1 payload the
claim covers is silently dropped. -/
theorem one_byte_payload_dropped : listenDispatch 1 = false := by
  decide

/-- C9 (amended): every received payload of length at least 2 bytes is
dispatched to a handler task; payloads of length 0 or 1 are dropped. -/
theorem dispatch_len_ge_two (n : ℕ) (h : 2 ≤ n) : listenDispatch n = true := by
  simp only [listenDispatch, decide_eq_true_eq]
  omega

/-- Witness for the amended C9 theorem at payload length 2. -/
theorem dispatch_len_ge_two_witness : 2 ≤ 2 ∧ listenDispatch 2 = true :=
  ⟨by decide, dispatch_len_ge_two 2 (by decide)⟩

/-- C8 counterexample: Rust f32::clamp propagates NaN (both comparisons are
false), so a player whose reported x position is NaN is NOT brought into the
world bounds by clamp_player_to_bounds, refuting the claim for non-finite
prior values. -/
theorem clamp_nan_counterexample :
    ¬ inBoundsF (clampPlayerToBounds
        { id := 1, pos := ⟨.nan, .fin 0⟩, velocity := ⟨.fin 0, .fin 0⟩
        , color := ⟨.fin 0, .fin 0, .fin 0⟩ }).pos.x (-1188) 1188 := by
  rintro ⟨q, hq, -, -⟩
  simp [clampPlayerToBounds, clampF] at hq

/-- C8 (amended): for every prior position value other than NaN (including
the infinities), clamp_player_to_bounds brings each coordinate into
[WORLD_BOUNDS.min + 12, WORLD_BOUNDS.max - 12] = [-1188, 1188]; and each
simulation tick stores exactly the clamped players. -/
theorem clamp_in_bounds (p : Player) :
    (p.pos.x ≠ .nan → inBoundsF (clampPlayerToBounds p).pos.x (-1188) 1188) ∧
    (p.pos.y ≠ .nan → inBoundsF (clampPlayerToBounds p).pos.y (-1188) 1188) ∧
    ∀ reg : Registry, (simTick reg).1 = reg.map fun e => (e.1, clampPlayerToBounds e.2) := by
  refine ⟨?_, ?_, ?_⟩
  · intro hx
    cases h : p.pos.x with
    | nan => exact absurd h hx
    | inf =>
      exact ⟨1188, by simp [clampPlayerToBounds, clampF, h], by norm_num, le_refl _⟩
    | ninf =>
      exact ⟨-1188, by simp [clampPlayerToBounds, clampF, h], le_refl _, by norm_num⟩
    | fin q =>
      refine ⟨if q < -1188 then -1188 else if 1188 < q then 1188 else q,
        by simp [clampPlayerToBounds, clampF, h], ?_, ?_⟩ <;>
        split_ifs <;> linarith
  · intro hy
    cases h : p.pos.y with
    | nan => exact absurd h hy
    | inf =>
      exact ⟨1188, by simp [clampPlayerToBounds, clampF, h], by norm_num, le_refl _⟩
    | ninf =>
      exact ⟨-1188, by simp [clampPlayerToBounds, clampF, h], le_refl _, by norm_num⟩
    | fin q =>
      refine ⟨if q < -1188 then -1188 else if 1188 < q then 1188 else q,
        by simp [clampPlayerToBounds, clampF, h], ?_, ?_⟩ <;>
        split_ifs <;> linarith
  · intro reg
    induction reg with
    | nil => rfl
    | cons hd tl ih =>
      cases hd
      simp [simTick] at ih ⊢

/-- Witness for the amended C8 theorem at a concrete out-of-bounds player. -/
theorem clamp_in_bounds_witness :
    let p : Player :=
      { id := 1, pos := ⟨.fin 5000, .fin (-5000)⟩, velocity := ⟨.fin 0, .fin 0⟩
      , color := ⟨.fin 0, .fin 0, .fin 0⟩ }
    (p.pos.x ≠ .nan ∧ p.pos.y ≠ .nan) ∧
      inBoundsF (clampPlayerToBounds p).pos.x (-1188) 1188 ∧
      inBoundsF (clampPlayerToBounds p).pos.y (-1188) 1188 :=
  ⟨⟨by decide, by decide⟩,
   (clamp_in_bounds _).1 (by decide),
   (clamp_in_bounds _).2.1 (by decide)⟩

/-- C10: drop_player removes the sender's registry entry unconditionally —
with no check that the claimed id matches the registered one — leaves the id
counter alone, and enqueues a Leave broadcast carrying the claimed id that
excludes the sender's own address (so it reaches every other registered
address), even when the sender was never registered. -/
theorem drop_player_no_validation (st : ServerState) (client : Addr) (pid : ℕ) :
    (dropPlayer st client pid).1.players = removeReg st.players client ∧
    (dropPlayer st client pid).1.playerIdCounter = st.playerIdCounter ∧
    (dropPlayer st client pid).2 =
      { msg := Message.serialize (.Leave pid), excludedClient := some client } ∧
    ∀ reg : Registry, client ∉ broadcastSends reg (dropPlayer st client pid).2 := by
  refine ⟨rfl, rfl, rfl, ?_⟩
  intro reg hmem
  simp [broadcastSends, dropPlayer] at hmem

/-- C4: re-handshaking is idempotent. A Handshake from an address that is
already registered re-sends an Ack with the existing player's id and color
and leaves the whole server state untouched; consequently two Handshakes
from a fresh address produce two identical Acks and grow the registry by
exactly one entry. -/
theorem handshake_idempotent :
    (∀ (st : ServerState) (client : Addr) (c : Vec3) (p : Player),
        lookupReg st.players client = some p →
        acceptClient st client c = (st, (p.id, p.color))) ∧
    (∀ (st : ServerState) (client : Addr) (c1 c2 : Vec3),
        lookupReg st.players client = none →
        (acceptClient (acceptClient st client c1).1 client c2).2
            = (acceptClient st client c1).2 ∧
        (acceptClient (acceptClient st client c1).1 client c2).1
            = (acceptClient st client c1).1 ∧
        sizeReg (acceptClient st client c1).1.players = sizeReg st.players + 1) := by
  have part1 : ∀ (st : ServerState) (client : Addr) (c : Vec3) (p : Player),
      lookupReg st.players client = some p →
      acceptClient st client c = (st, (p.id, p.color)) := by
    intro st client c p h
    simp [acceptClient, h]
  refine ⟨part1, ?_⟩
  intro st client c1 c2 h
  have h1 : acceptClient st client c1 =
      ({ players := insertReg st.players client (Player.new st.playerIdCounter c1)
       , playerIdCounter := (st.playerIdCounter + 1) % 2 ^ 64 },
       (st.playerIdCounter, c1)) := by
    simp [acceptClient, h]
  have h2 : lookupReg (acceptClient st client c1).1.players client
      = some (Player.new st.playerIdCounter c1) := by
    rw [h1]
    exact lookup_insertReg_self _ _ _
  have h3 := part1 (acceptClient st client c1).1 client c2 _ h2
  refine ⟨?_, ?_, ?_⟩
  · rw [h3, h1]
    simp [Player.new, Player.default]
  · rw [h3]
  · rw [h1]
    exact sizeReg_insertReg_of_none _ _ _ h

/-- Witness for C4 at concrete states: an already-registered address gets the
stored identity back, and a fresh address handshaking twice gets identical
Acks while the registry grows by one. -/
theorem handshake_idempotent_witness :
    (lookupReg [(0, Player.new 1 ⟨.fin 0, .fin 0, .fin 0⟩)] 0
        = some (Player.new 1 ⟨.fin 0, .fin 0, .fin 0⟩) ∧
      acceptClient { players := [(0, Player.new 1 ⟨.fin 0, .fin 0, .fin 0⟩)]
                   , playerIdCounter := 2 } 0 ⟨.fin 1, .fin 0, .fin 0⟩
        = ({ players := [(0, Player.new 1 ⟨.fin 0, .fin 0, .fin 0⟩)]
           , playerIdCounter := 2 },
           ((Player.new 1 ⟨.fin 0, .fin 0, .fin 0⟩).id,
            (Player.new 1 ⟨.fin 0, .fin 0, .fin 0⟩).color))) ∧
    (lookupReg ServerState.init.players 7 = none ∧
      (acceptClient (acceptClient ServerState.init 7 ⟨.fin 0, .fin 0, .fin 0⟩).1 7
          ⟨.fin 1, .fin 1, .fin 0⟩).2
        = (acceptClient ServerState.init 7 ⟨.fin 0, .fin 0, .fin 0⟩).2 ∧
      (acceptClient (acceptClient ServerState.init 7 ⟨.fin 0, .fin 0, .fin 0⟩).1 7
          ⟨.fin 1, .fin 1, .fin 0⟩).1
        = (acceptClient ServerState.init 7 ⟨.fin 0, .fin 0, .fin 0⟩).1 ∧
      sizeReg (acceptClient ServerState.init 7 ⟨.fin 0, .fin 0, .fin 0⟩).1.players
        = sizeReg ServerState.init.players + 1) :=
  ⟨⟨by decide,
    handshake_idempotent.1 _ 0 ⟨.fin 1, .fin 0, .fin 0⟩ _ (by decide)⟩,
   ⟨by decide,
    handshake_idempotent.2 ServerState.init 7 ⟨.fin 0, .fin 0, .fin 0⟩
      ⟨.fin 1, .fin 1, .fin 0⟩ (by decide)⟩⟩

/-- C6: for one broadcast envelope, the excluded address (when set) is never
among the addresses the broadcaster sends to, even when it is registered;
and every other registered address is sent the payload exactly once
(uniqueness of registry keys is the HashMap invariant, taken as a
hypothesis). -/
theorem broadcast_exclusion (reg : Registry) (b : BroadcastMessage)
    (hnd : (keysReg reg).Nodup) :
    (∀ a, b.excludedClient = some a → a ∉ broadcastSends reg b) ∧
    (∀ a, a ∈ keysReg reg → some a ≠ b.excludedClient →
        (broadcastSends reg b).count a = 1) := by
  constructor
  · intro a hex hmem
    rw [broadcastSends] at hmem
    have hpred := (List.mem_filter.mp hmem).2
    simp [hex] at hpred
  · intro a ha hne
    have hsub : (broadcastSends reg b).Nodup := hnd.filter _
    exact List.count_eq_one_of_mem hsub (List.mem_filter.mpr ⟨ha, by simp [hne]⟩)

/-- Witness for C6 at a concrete two-entry registry with address 1 excluded:
1 receives nothing, 2 receives the payload exactly once. -/
theorem broadcast_exclusion_witness :
    (keysReg [(1, Player.default), (2, Player.default)]).Nodup ∧
    1 ∉ broadcastSends [(1, Player.default), (2, Player.default)]
        { msg := [], excludedClient := some 1 } ∧
    (broadcastSends [(1, Player.default), (2, Player.default)]
        { msg := [], excludedClient := some 1 }).count 2 = 1 :=
  ⟨by decide,
   (broadcast_exclusion _ _ (by decide)).1 1 rfl,
   (broadcast_exclusion _ _ (by decide)).2 2 (by decide) (by decide)⟩

/-- C7: a Position datagram overwrites the registered player's position
verbatim exactly when the sender address is registered under the claimed id;
an unregistered sender or a mismatched id leaves the server state entirely
unchanged, and every path returns Ok (no error). -/
theorem update_position_behavior (st : ServerState) (client : Addr) (pid : ℕ)
    (pos : Vec2) :
    (lookupReg st.players client = none →
      updatePosition st client pid pos = .ok st) ∧
    (∀ p, lookupReg st.players client = some p → pid ≠ p.id →
      updatePosition st client pid pos = .ok st) ∧
    (∀ p, lookupReg st.players client = some p → pid = p.id →
      updatePosition st client pid pos =
        .ok { st with players := setPosReg st.players client pos } ∧
      lookupReg (setPosReg st.players client pos) client =
        some { p with pos := pos } ∧
      ∀ a, a ≠ client →
        lookupReg (setPosReg st.players client pos) a = lookupReg st.players a) := by
  refine ⟨?_, ?_, ?_⟩
  · intro h
    simp [updatePosition, h]
  · intro p h hne
    simp [updatePosition, h, hne]
  · intro p h heq
    refine ⟨by simp [updatePosition, h, heq], ?_, ?_⟩
    · rw [lookup_setPosReg_self, h]
      rfl
    · intro a ha
      exact lookup_setPosReg_ne _ _ _ _ ha

/-- Witness for C7 at a concrete one-entry registry: an unregistered sender
and a mismatched id change nothing, a matching id overwrites the position. -/
theorem update_position_behavior_witness :
    (lookupReg [(0, Player.new 1 ⟨.fin 0, .fin 0, .fin 0⟩)] 5 = none ∧
      updatePosition { players := [(0, Player.new 1 ⟨.fin 0, .fin 0, .fin 0⟩)]
                     , playerIdCounter := 2 } 5 9 ⟨.fin 3, .fin 4⟩
        = .ok { players := [(0, Player.new 1 ⟨.fin 0, .fin 0, .fin 0⟩)]
              , playerIdCounter := 2 }) ∧
    (lookupReg [(0, Player.new 1 ⟨.fin 0, .fin 0, .fin 0⟩)] 0
        = some (Player.new 1 ⟨.fin 0, .fin 0, .fin 0⟩) ∧ 9 ≠ 1 ∧
      updatePosition { players := [(0, Player.new 1 ⟨.fin 0, .fin 0, .fin 0⟩)]
                     , playerIdCounter := 2 } 0 9 ⟨.fin 3, .fin 4⟩
        = .ok { players := [(0, Player.new 1 ⟨.fin 0, .fin 0, .fin 0⟩)]
              , playerIdCounter := 2 }) ∧
    updatePosition { players := [(0, Player.new 1 ⟨.fin 0, .fin 0, .fin 0⟩)]
                   , playerIdCounter := 2 } 0 1 ⟨.fin 3, .fin 4⟩
      = .ok { players := setPosReg [(0, Player.new 1 ⟨.fin 0, .fin 0, .fin 0⟩)] 0
                ⟨.fin 3, .fin 4⟩
            , playerIdCounter := 2 } :=
  ⟨⟨by decide,
    (update_position_behavior
        { players := [(0, Player.new 1 ⟨.fin 0, .fin 0, .fin 0⟩)]
        , playerIdCounter := 2 } 5 9 ⟨.fin 3, .fin 4⟩).1 (by decide)⟩,
   ⟨by decide, by decide,
    (update_position_behavior
        { players := [(0, Player.new 1 ⟨.fin 0, .fin 0, .fin 0⟩)]
        , playerIdCounter := 2 } 0 9 ⟨.fin 3, .fin 4⟩).2.1
      (Player.new 1 ⟨.fin 0, .fin 0, .fin 0⟩) (by decide) (by decide)⟩,
   ((update_position_behavior
        { players := [(0, Player.new 1 ⟨.fin 0, .fin 0, .fin 0⟩)]
        , playerIdCounter := 2 } 0 1 ⟨.fin 3, .fin 4⟩).2.2
      (Player.new 1 ⟨.fin 0, .fin 0, .fin 0⟩) (by decide) (by decide)).1⟩

/-- C5: player ids are allocated from the counter seeded at 1, so N
sequential Handshakes from N pairwise-distinct fresh addresses are acked
with pairwise-distinct, strictly increasing ids; and after any dispatched
event sequence (bounded away from u64 counter wrap-around) the registry
holds pairwise-distinct player ids under pairwise-distinct address keys. -/
theorem player_id_allocation :
    (∀ hs : List (Addr × Vec3), (hs.map Prod.fst).Nodup →
        hs.length ≤ 2 ^ 64 - 2 →
        ((runHandshakes ServerState.init hs).2.map Prod.fst).Pairwise (· < ·) ∧
        ((runHandshakes ServerState.init hs).2.map Prod.fst).Nodup) ∧
    (∀ ops : List Op, ops.length ≤ 2 ^ 64 - 2 →
        (idsOfReg (runOps ServerState.init ops).players).Nodup ∧
        (keysReg (runOps ServerState.init ops).players).Nodup) := by
  constructor
  · intro hs hnd hlen
    have h := runHandshakes_ids hs ServerState.init
      (by intro a ha; rfl) hnd
      (by show 1 + hs.length < 2 ^ 64; omega)
    rw [h]
    exact ⟨List.pairwise_lt_range' _ _, List.nodup_range' _ _⟩
  · intro ops hlen
    have h := regInv_runOps ops ServerState.init 1 regInv_init (by omega)
    exact ⟨h.2.1, h.1⟩

/-- Witness for C5: two handshakes from distinct addresses 5 and 9 are acked
with strictly increasing distinct ids, and a handshake followed by a leave
keeps the registry invariant. -/
theorem player_id_allocation_witness :
    (([(5, (⟨.fin 0, .fin 0, .fin 0⟩ : Vec3)), (9, ⟨.fin 0, .fin 0, .fin 0⟩)]
        : List (Addr × Vec3)).map Prod.fst).Nodup ∧
    (((runHandshakes ServerState.init
          [(5, ⟨.fin 0, .fin 0, .fin 0⟩), (9, ⟨.fin 0, .fin 0, .fin 0⟩)]).2.map
        Prod.fst).Pairwise (· < ·) ∧
      ((runHandshakes ServerState.init
          [(5, ⟨.fin 0, .fin 0, .fin 0⟩), (9, ⟨.fin 0, .fin 0, .fin 0⟩)]).2.map
        Prod.fst).Nodup) ∧
    ((idsOfReg (runOps ServerState.init
        [Op.handshake 5 ⟨.fin 0, .fin 0, .fin 0⟩, Op.leave 5 1]).players).Nodup ∧
      (keysReg (runOps ServerState.init
        [Op.handshake 5 ⟨.fin 0, .fin 0, .fin 0⟩, Op.leave 5 1]).players).Nodup) :=
  ⟨by decide,
   player_id_allocation.1
     [(5, ⟨.fin 0, .fin 0, .fin 0⟩), (9, ⟨.fin 0, .fin 0, .fin 0⟩)]
     (by decide) (by norm_num),
   player_id_allocation.2
     [Op.handshake 5 ⟨.fin 0, .fin 0, .fin 0⟩, Op.leave 5 1] (by norm_num)⟩

end GameServer
